import Mathlib

/-!
Verification development for the gap-detection-and-imputation pipeline of
`missing_data.py` (janosb/TimeSeriesAnalysis).

Modelling conventions:
* Positions and values are rationals (`ℚ`); the Python floats in every scenario
  considered here carry exact small decimals, so rational arithmetic models
  them exactly.
* The MISSING marker `np.nan` is modelled as `none` in `Option ℚ`.
* Fallible Python code returns `Except PyErr`; each `PyErr` constructor names
  the Python exception class raised.
* Calls to `random.sample` are modelled by passing the sampled index list
  explicitly, together with the properties `random.sample` guarantees
  (duplicate-free, drawn from `range(n_arr)`).
-/

namespace MissingData

/-- Python exception kinds raised by the embedded code. -/
inductive PyErr
  | valueError
  | typeError
  | nameError
  | keyError
  | indexError
deriving DecidableEq

/-- Entry of the value array: `some q` is an ordinary number, `none` models
`np.nan` (the MISSING marker). -/
abbrev YVal := Option ℚ

/-- Python's `list.insert(k, v)`: inserts `v` before index `k`
(appends when `k ≥ len`). -/
def pyInsert (l : List α) (k : ℕ) (v : α) : List α := l.take k ++ v :: l.drop k

/-- Bin range used by `np.histogram`: (min, max) of the data, widened by 1/2 on
each side when all data coincide, and (0, 1) for empty data. -/
def histRange : List ℚ → ℚ × ℚ
  | [] => (0, 1)
  | x :: xs =>
    let mn := xs.foldl min x
    let mx := xs.foldl max x
    if mn = mx then (mn - 1/2, mx + 1/2) else (mn, mx)

/-- Index of the one of the 10 equal-width bins of `[first, last]` a value
falls into (the last bin is closed on the right). -/
def histIdx (first last v : ℚ) : ℕ :=
  min (Int.toNat ⌊(v - first) * 10 / (last - first)⌋) 9

/-- Model of `np.histogram(a)` with the default 10 bins:
(bin frequencies, the 11 bin edges). -/
def npHistogram (a : List ℚ) : List ℕ × List ℚ :=
  let fl := histRange a
  ((List.range 10).map (fun i => a.countP (fun v => histIdx fl.1 fl.2 v == i)),
   (List.range 11).map (fun i : ℕ => fl.1 + (i : ℚ) * (fl.2 - fl.1) / 10))

/-- Model of `np.argmax`: index of the first occurrence of the maximum. -/
def npArgmax (l : List ℕ) : ℕ := l.indexOf (l.foldr max 0)

/-- Python truthiness of an optional number (`None` and `0.0` are falsy). -/
def pyTruthy : Option ℚ → Bool
  | none => false
  | some q => q != 0

/-- State of `DataProcessor`. Positions and values are numeric here (the
`np.datetime64` branch of `__init__` is modelled separately on `DTState`).
The field `imputer` records whether `set_imputer` has stored an imputer
object: the processor only ever tests that slot for truthiness (`impute_all`
never calls it), so a `Bool` captures everything the class does with it. -/
structure DataProcessor where
  x_arr : List ℚ
  y_arr : List YVal
  n_arr : ℕ
  delta : Option ℚ
  imputer : Bool
  missing_x_arr : List (ℕ × ℚ)
deriving DecidableEq

namespace DataProcessor

/-- Model of `sort_x_values`: jointly sorts the zipped pairs by position
(Python's stable `sorted` with `key=lambda tup: tup[0]`), then unzips. -/
def sort_x_values (s : DataProcessor) : DataProcessor :=
  let x_y := List.insertionSort (fun a b => a.1 ≤ b.1) (s.x_arr.zip s.y_arr)
  { s with x_arr := x_y.map Prod.fst, y_arr := x_y.map Prod.snd }

/-- Model of `DataProcessor.__init__` on numeric inputs: `n_arr = len(x_arr)`,
a `ValueError` on a length mismatch or empty input, then a joint sort by
position; `delta`, `imputer` and `missing_x_arr` start unset/empty. -/
def init (x_arr : List ℚ) (y_arr : List YVal) : Except PyErr DataProcessor :=
  if y_arr.length ≠ x_arr.length then .error .valueError
  else if x_arr.length = 0 then .error .valueError
  else .ok (sort_x_values
    { x_arr := x_arr, y_arr := y_arr, n_arr := x_arr.length,
      delta := none, imputer := false, missing_x_arr := [] })

/-- Model of `infer_delta`: consecutive differences of the first `n_arr`
positions (`diff_arr`), their default 10-bin `np.histogram`, and the left
edge of the first highest-frequency bin (`delta[np.argmax(freq)]`); the
result is cached in `self.delta` and returned. -/
def infer_delta (s : DataProcessor) : ℚ × DataProcessor :=
  let diff_arr := (List.range (s.n_arr - 1)).map
    (fun j => s.x_arr.getD (j+1) 0 - s.x_arr.getD j 0)
  let fd := npHistogram diff_arr
  let d := fd.2.getD (npArgmax fd.1) 0
  (d, { s with delta := some d })

/-- Model of `set_imputer`: only "lowess" is registered in the `imputers`
mapping; any other name raises `KeyError`. -/
def set_imputer (s : DataProcessor) (imputer_name : String) :
    Except PyErr DataProcessor :=
  if imputer_name = "lowess" then .ok { s with imputer := true }
  else .error .keyError

/-- Model of lines 141–142 of `find_missing_data`:
`if not delta: delta = self.delta if self.delta else self.infer_delta()`.
Both tests are Python truthiness tests: an explicit argument of `0` counts as
absent, and a cached `delta` of `0` triggers re-inference. -/
def resolveDelta (s : DataProcessor) (delta : Option ℚ) : ℚ × DataProcessor :=
  if pyTruthy delta then (delta.getD 0, s)
  else if pyTruthy s.delta then (s.delta.getD 0, s)
  else infer_delta s

/-- Body of the insertion loop of `find_missing_data` at flagged index `i`:
`x_added = x_arr[i] + delta`; insert `x_added` at `i+1` in `x_arr`, insert
`np.nan` at `i+1` in `y_arr`, append `(i+1, x_added)` to `missing_x_arr`.
The count `n_arr` is (notably) not updated here. -/
def insert_missing (d : ℚ) (s : DataProcessor) (i : ℕ) : DataProcessor :=
  let x_added := s.x_arr.getD i 0 + d
  { s with
    x_arr := pyInsert s.x_arr (i+1) x_added,
    y_arr := pyInsert s.y_arr (i+1) none,
    missing_x_arr := s.missing_x_arr ++ [(i+1, x_added)] }

/-- Model of `find_missing_data(delta=None)`: resolves the spacing (see
`resolveDelta`), flags every index `i < n_arr - 1` with
`x_arr[i+1] - x_arr[i] > delta`, and processes the flagged indices in
descending order (`sorted(missing_data_ix, reverse=True)`), inserting one
placeholder per flagged gap. -/
def find_missing_data (s : DataProcessor) (delta : Option ℚ) : DataProcessor :=
  let ds := resolveDelta s delta
  let missing_data_ix := (List.range (ds.2.n_arr - 1)).filter
    (fun i => ds.2.x_arr.getD (i+1) 0 - ds.2.x_arr.getD i 0 > ds.1)
  (List.insertionSort (· ≥ ·) missing_data_ix).foldl (insert_missing ds.1) ds.2

/-- Model of `impute_all`: raises `ValueError` unless an imputer is
configured; then, for each recorded site in descending index order, the loop
body is only `print(i, self.y_arr[i])` — an `IndexError` if a recorded index
is out of range, and otherwise no state change at all: nothing is estimated
and nothing is written back. -/
def impute_all (s : DataProcessor) : Except PyErr DataProcessor :=
  if s.imputer then
    if s.missing_x_arr.all (fun p => p.1 < s.y_arr.length) then .ok s
    else .error .indexError
  else .error .valueError

/-- Model of `delete_randomly(n)`: keeps the samples at
`rand_ix = random.sample(range(n_arr), n_arr - n)` — a duplicate-free,
unordered list of indices below `n_arr`, here passed explicitly — then
updates `n_arr` and re-sorts. -/
def delete_randomly (s : DataProcessor) (rand_ix : List ℕ) : DataProcessor :=
  let x := rand_ix.map (fun i => s.x_arr.getD i 0)
  let y := rand_ix.map (fun i => s.y_arr.getD i none)
  sort_x_values { s with x_arr := x, y_arr := y, n_arr := x.length }

end DataProcessor

/-- Smoothed curve held by a constructed `LowessImputer` (its `lowess_x`,
`lowess_y`): the statsmodels fit that produces it is numerical and no claim
depends on its coefficients, only on how the wrapper queries the curve. -/
structure LowessImputer where
  lowess_x : List ℚ
  lowess_y : List ℚ
deriving DecidableEq

/-- Model of `scipy.interpolate.interp1d(xs, ys, bounds_error=False)`
evaluated at `q` over the zipped curve points: linear interpolation between
consecutive points, and `nan` (modelled `none`) outside the curve's position
range. -/
def interp1d : List (ℚ × ℚ) → ℚ → YVal
  | [], _ => none
  | [p], q => if q = p.1 then some p.2 else none
  | p1 :: p2 :: rest, q =>
    if p1.1 ≤ q ∧ q ≤ p2.1 then
      some (p1.2 + (q - p1.1) * (p2.2 - p1.2) / (p2.1 - p1.1))
    else interp1d (p2 :: rest) q

/-- Model of `LowessImputer.__call__(self, x_val)`: the body is
`return self.interpolator(x)`. The name `x` is unbound at that point — the
parameter is `x_val`, and no global `x` exists in the module — so every call
raises `NameError` before the interpolator is consulted. -/
def LowessImputer.call (_imp : LowessImputer) (_x_val : ℚ) : Except PyErr YVal :=
  .error .nameError

/-- Python object in a sequence handed to timestamp conversion: a plain
number, or a datetime identified by its epoch seconds (the number
`dt.datetime.timestamp` yields for it). -/
inductive PyObj
  | num (q : ℚ)
  | datetime (t : ℚ)
deriving DecidableEq

/-- Model of `dt.datetime.timestamp(x)`: defined on datetimes only. -/
def timestamp : PyObj → Except PyErr ℚ
  | .datetime t => .ok t
  | .num _ => .error .typeError

/-- Python `float - obj`: defined when `obj` is a number;
`float - datetime` raises `TypeError`. -/
def pySubNum (q : ℚ) : PyObj → Except PyErr ℚ
  | .num r => .ok (q - r)
  | .datetime _ => .error .typeError

/-- Python `<` on objects: comparable within a type, `TypeError` across. -/
def pyLt : PyObj → PyObj → Except PyErr Bool
  | .num a, .num b => .ok (decide (a < b))
  | .datetime a, .datetime b => .ok (decide (a < b))
  | _, _ => .error .typeError

/-- Python `min` over a sequence (`ValueError` on empty, `TypeError` on
incomparable elements). -/
def pyMin : List PyObj → Except PyErr PyObj
  | [] => .error .valueError
  | x :: xs => xs.foldlM (fun m v => do
      let lt ← pyLt v m
      pure (if lt then v else m)) x

/-- Arrays of the processor as `convert_datetime_to_int` sees them: elements
may still be datetimes. -/
structure DTState where
  x_arr : List PyObj
  y_arr : List PyObj
deriving DecidableEq

/-- Model of `convert_datetime_to_int(arr)`: for `'x'`, computes
`minx = min(self.x_arr)` and replaces every element `x` with
`dt.datetime.timestamp(x) - minx`; symmetrically for `'y'`; any other
selector raises `ValueError`. Note that `minx` is the raw minimum object —
not its timestamp — so the subtraction mixes a float with a datetime. -/
def convert_datetime_to_int (s : DTState) (arr : String) :
    Except PyErr DTState :=
  if arr = "x" then do
    let minx ← pyMin s.x_arr
    let newx ← s.x_arr.mapM (fun x => do pySubNum (← timestamp x) minx)
    .ok { s with x_arr := newx.map .num }
  else if arr = "y" then do
    let miny ← pyMin s.y_arr
    let newy ← s.y_arr.mapM (fun y => do pySubNum (← timestamp y) miny)
    .ok { s with y_arr := newy.map .num }
  else .error .valueError

/-- The joint-sort comparison on (position, value) pairs is total. -/
instance : IsTotal (ℚ × YVal) (fun a b => a.1 ≤ b.1) := ⟨fun a b => le_total a.1 b.1⟩

/-- The joint-sort comparison on (position, value) pairs is transitive. -/
instance : IsTrans (ℚ × YVal) (fun a b => a.1 ≤ b.1) := ⟨fun _ _ _ h1 h2 => le_trans h1 h2⟩

/-! ## Mutation steps and invariants

The single-threaded lifecycle of a processor: it is built by `__init__` and
then mutated by the public operations. `convert_datetime_to_int` invoked on a
numeric state raises `TypeError` before any assignment, leaving the state
unchanged, so it contributes no transition beyond the reflexive one; a
`delete_randomly` call whose kept-index sample is everything `random.sample`
can return is covered, including the degenerate full-deletion call. -/

open DataProcessor in
/-- One successful mutating call on a `DataProcessor`, with the guarantees
Python's standard library provides for the data the call consumes
(`random.sample` returns duplicate-free indices from `range(n_arr)`); gap
detection is taken with a positive explicit spacing or none at all, matching
the claims' "positive spacing" validity assumption. -/
inductive Step : DataProcessor → DataProcessor → Prop
  | sortStep (s : DataProcessor) : Step s (sort_x_values s)
  | inferStep (s : DataProcessor) : Step s (infer_delta s).2
  | setImpStep (s : DataProcessor) (imputer_name : String) (t : DataProcessor)
      (h : set_imputer s imputer_name = .ok t) : Step s t
  | deleteStep (s : DataProcessor) (rand_ix : List ℕ) (hnd : rand_ix.Nodup)
      (hlt : ∀ i ∈ rand_ix, i < s.n_arr) : Step s (delete_randomly s rand_ix)
  | findStep (s : DataProcessor) (darg : Option ℚ)
      (h : darg = none ∨ ∃ q, darg = some q ∧ 0 < q) :
      Step s (find_missing_data s darg)
  | imputeStep (s t : DataProcessor) (h : impute_all s = .ok t) : Step s t

/-- A state obtained from a valid construction: `__init__` succeeded on a
duplicate-free position list (the documented validity precondition). -/
def ValidStart (s : DataProcessor) : Prop :=
  ∃ x y, x.Nodup ∧ DataProcessor.init x y = Except.ok s

/-- Any number of mutating calls after construction. -/
def Reachable (s0 s : DataProcessor) : Prop := Relation.ReflTransGen Step s0 s

/-- The inductive state invariant: strictly increasing positions, index
alignment of the two arrays, `n_arr` never exceeding the array length, and a
cached spacing that is positive except in the degenerate ≤1-sample case
(where inference degenerates to `0` but no pair can ever be flagged). -/
def Inv (s : DataProcessor) : Prop :=
  s.x_arr.Pairwise (· < ·) ∧
  s.x_arr.length = s.y_arr.length ∧
  s.n_arr ≤ s.x_arr.length ∧
  ∀ d, s.delta = some d → 0 < d ∨ (d = 0 ∧ s.n_arr ≤ 1)

/-! ## Concrete states used by the claims -/

open DataProcessor

/-- Processor on positions `[0,1,2,5,6,7]` as produced by `__init__`
(spec's gap-detection test vector). -/
def procC3 : DataProcessor :=
  { x_arr := [0, 1, 2, 5, 6, 7],
    y_arr := [some 10, some 20, some 30, some 40, some 50, some 60],
    n_arr := 6, delta := none, imputer := false, missing_x_arr := [] }

/-- Processor on positions `[0,1,2,3,10,11,12,13]` (spec's spacing-inference
test vector). -/
def procC4 : DataProcessor :=
  { x_arr := [0, 1, 2, 3, 10, 11, 12, 13],
    y_arr := [some 1, some 2, some 3, some 4, some 5, some 6, some 7, some 8],
    n_arr := 8, delta := none, imputer := false, missing_x_arr := [] }

/-- The `procC3` state with a previously cached spacing of `5`. -/
def procC5 : DataProcessor := { procC3 with delta := some 5 }

/-- The `procC3` state with a previously cached spacing of `7`. -/
def procC5b : DataProcessor := { procC3 with delta := some 7 }

/-- The `procC3` state after `set_imputer('lowess')`. -/
def procC1 : DataProcessor := { procC3 with imputer := true }

/-- The `procC1` state after `find_missing_data(delta=1)`: one placeholder
`(index 3, position 3)` has been inserted and `y_arr[3]` is MISSING. -/
def procC1x : DataProcessor := find_missing_data procC1 (some 1)

/-- A constructed estimator whose smoothed curve spans positions 0 to 10. -/
def impC2 : LowessImputer := { lowess_x := [0, 10], lowess_y := [5, 5] }

/-- Two timestamps (epoch seconds 100 and 40) in the position slot. -/
def dtsC9 : DTState :=
  { x_arr := [.datetime 100, .datetime 40], y_arr := [.num 1, .num 2] }

/-- Small sorted processor used to witness the reachability theorems. -/
def procW : DataProcessor :=
  { x_arr := [0, 1, 3], y_arr := [some 5, some 6, some 7],
    n_arr := 3, delta := none, imputer := false, missing_x_arr := [] }

/-- Processor with an imputer configured and no recorded missing sites. -/
def procQ : DataProcessor :=
  { x_arr := [0, 1], y_arr := [some 1, some 2],
    n_arr := 2, delta := none, imputer := true, missing_x_arr := [] }

/-! ## Supporting lemmas -/


theorem sort_x_values_x_length (s : DataProcessor) :
    (sort_x_values s).x_arr.length = min s.x_arr.length s.y_arr.length := by
  simp [sort_x_values, (List.perm_insertionSort _ _).length_eq]

theorem sort_x_values_y_length (s : DataProcessor) :
    (sort_x_values s).y_arr.length = min s.x_arr.length s.y_arr.length := by
  simp [sort_x_values, (List.perm_insertionSort _ _).length_eq]

theorem sort_x_values_sorted (s : DataProcessor) (hnd : s.x_arr.Nodup)
    (hlen : s.x_arr.length = s.y_arr.length) :
    (sort_x_values s).x_arr.Pairwise (· < ·) := by
  have hperm :
      List.Perm ((List.insertionSort (fun a b : ℚ × YVal => a.1 ≤ b.1)
        (s.x_arr.zip s.y_arr)).map Prod.fst) s.x_arr := by
    have h1 := (List.perm_insertionSort (fun a b : ℚ × YVal => a.1 ≤ b.1)
      (s.x_arr.zip s.y_arr)).map Prod.fst
    rwa [List.map_fst_zip _ _ (le_of_eq hlen)] at h1
  have hsor :
      ((List.insertionSort (fun a b : ℚ × YVal => a.1 ≤ b.1)
        (s.x_arr.zip s.y_arr)).map Prod.fst).Pairwise (· ≤ ·) :=
    List.pairwise_map.2 (List.sorted_insertionSort _ _)
  have hnd' :
      ((List.insertionSort (fun a b : ℚ × YVal => a.1 ≤ b.1)
        (s.x_arr.zip s.y_arr)).map Prod.fst).Nodup := hperm.nodup_iff.2 hnd
  exact List.Sorted.lt_of_le hsor hnd'

theorem pyInsert_length (l : List α) (k : ℕ) (v : α) :
    (pyInsert l k v).length = l.length + 1 := by
  simp [pyInsert]; omega

theorem pyInsert_getD_of_lt (l : List α) (k j : ℕ) (v d : α)
    (h1 : j < k) (h2 : j < l.length) :
    (pyInsert l k v).getD j d = l.getD j d := by
  have hj : j < (l.take k).length := by simp [List.length_take]; omega
  rw [pyInsert, List.getD_append _ _ _ _ hj, List.getD_eq_getElem _ _ hj,
    List.getElem_take, List.getD_eq_getElem _ _ h2]

theorem pairwise_pyInsert (l : List ℚ) (k : ℕ) (v : ℚ) (hl : l.Pairwise (· < ·))
    (hlo : ∀ a ∈ l.take k, a < v) (hhi : ∀ a ∈ l.drop k, v < a) :
    (pyInsert l k v).Pairwise (· < ·) := by
  have hsplit : List.Pairwise (α := ℚ) (· < ·) (l.take k ++ l.drop k) := by
    rwa [List.take_append_drop]
  rw [pyInsert, List.pairwise_append]
  refine ⟨(List.pairwise_append.1 hsplit).1,
    List.pairwise_cons.2 ⟨hhi, (List.pairwise_append.1 hsplit).2.1⟩,
    fun a ha b hb => ?_⟩
  rcases List.mem_cons.1 hb with rfl | hb
  · exact hlo a ha
  · exact (List.pairwise_append.1 hsplit).2.2 a ha b hb

theorem mem_take_le_getD (l : List ℚ) (i : ℕ) (hi : i < l.length)
    (hl : l.Pairwise (· < ·)) :
    ∀ a ∈ l.take (i+1), a ≤ l.getD i 0 := by
  intro a ha
  obtain ⟨j, hj, rfl⟩ := List.mem_iff_getElem.1 ha
  have hj' : j < i + 1 := lt_of_lt_of_le hj (by simp [List.length_take])
  have hjl : j < l.length := lt_of_lt_of_le hj (by simp [List.length_take])
  rw [List.getElem_take, List.getD_eq_getElem _ _ hi]
  rcases Nat.lt_or_ge j i with h | h
  · exact le_of_lt (List.pairwise_iff_getElem.1 hl j i hjl hi h)
  · have : j = i := by omega
    subst this; exact le_refl _

theorem mem_drop_ge_getD (l : List ℚ) (i : ℕ) (hi : i + 1 < l.length)
    (hl : l.Pairwise (· < ·)) :
    ∀ a ∈ l.drop (i+1), l.getD (i+1) 0 ≤ a := by
  intro a ha
  obtain ⟨j, hj, rfl⟩ := List.mem_iff_getElem.1 ha
  rw [List.getElem_drop, List.getD_eq_getElem _ _ hi]
  have hjl : i + 1 + j < l.length := by simp [List.length_drop] at hj; omega
  rcases Nat.eq_zero_or_pos j with h | h
  · subst h; exact le_refl _
  · exact le_of_lt (List.pairwise_iff_getElem.1 hl (i+1) (i+1+j) hi hjl (by omega))


theorem foldl_min_le (xs : List ℚ) :
    ∀ x : ℚ, xs.foldl min x ≤ x ∧ ∀ v ∈ xs, xs.foldl min x ≤ v := by
  induction xs with
  | nil => intro x; exact ⟨le_refl x, by simp⟩
  | cons y ys ih =>
    intro x
    refine ⟨le_trans (ih (min x y)).1 (min_le_left x y), fun v hv => ?_⟩
    rcases List.mem_cons.1 hv with rfl | hv
    · exact le_trans (ih (min x v)).1 (min_le_right x v)
    · exact (ih (min x y)).2 v hv

theorem le_foldl_max (xs : List ℚ) :
    ∀ x : ℚ, x ≤ xs.foldl max x ∧ ∀ v ∈ xs, v ≤ xs.foldl max x := by
  induction xs with
  | nil => intro x; exact ⟨le_refl x, by simp⟩
  | cons y ys ih =>
    intro x
    refine ⟨le_trans (le_max_left x y) (ih (max x y)).1, fun v hv => ?_⟩
    rcases List.mem_cons.1 hv with rfl | hv
    · exact le_trans (le_max_right x v) (ih (max x v)).1
    · exact (ih (max x y)).2 v hv

theorem foldl_min_pos (xs : List ℚ) :
    ∀ x : ℚ, 0 < x → (∀ v ∈ xs, 0 < v) → 0 < xs.foldl min x := by
  induction xs with
  | nil => intro x hx _; exact hx
  | cons y ys ih =>
    intro x hx h
    exact ih (min x y) (lt_min hx (h y (by simp))) (fun v hv => h v (by simp [hv]))

theorem npHistogram_fst (a : List ℚ) :
    (npHistogram a).1 = (List.range 10).map
      (fun i => a.countP (fun v => histIdx (histRange a).1 (histRange a).2 v == i)) := rfl

theorem npHistogram_snd (a : List ℚ) :
    (npHistogram a).2 = (List.range 11).map
      (fun i : ℕ => (histRange a).1 + (i : ℚ) * ((histRange a).2 - (histRange a).1) / 10) := rfl

theorem npHistogram_freq_length (a : List ℚ) : (npHistogram a).1.length = 10 := by
  rw [npHistogram_fst]; simp

theorem npHistogram_edge (a : List ℚ) (k : ℕ) (hk : k < 11) :
    (npHistogram a).2.getD k 0
      = (histRange a).1 + (k : ℚ) * ((histRange a).2 - (histRange a).1) / 10 := by
  rw [npHistogram_snd, List.getD_eq_getElem _ _ (by simpa using hk)]
  simp only [List.getElem_map, List.getElem_range]

theorem npArgmax_le (l : List ℕ) : npArgmax l ≤ l.length := List.indexOf_le_length

theorem hist_pos (a : List ℚ) (ha : a ≠ []) (hpos : ∀ v ∈ a, 0 < v) :
    0 < (npHistogram a).2.getD (npArgmax (npHistogram a).1) 0 := by
  match a, ha with
  | x :: xs, _ =>
    have hx : 0 < x := hpos x (by simp)
    have hxs : ∀ v ∈ xs, 0 < v := fun v hv => hpos v (by simp [hv])
    have hmn : 0 < xs.foldl min x := foldl_min_pos xs x hx hxs
    by_cases heq : xs.foldl min x = xs.foldl max x
    · -- all data coincide: everything lands in bin 5, whose left edge is the datum
      have hR : histRange (x :: xs)
          = (xs.foldl min x - 1/2, xs.foldl max x + 1/2) := by
        simp [histRange, heq]
      have hall : ∀ v ∈ x :: xs, v = xs.foldl min x := by
        intro v hv
        rcases List.mem_cons.1 hv with rfl | hv
        · exact le_antisymm (by rw [heq]; exact (le_foldl_max xs v).1)
            (foldl_min_le xs v).1
        · exact le_antisymm (by rw [heq]; exact (le_foldl_max xs x).2 v hv)
            ((foldl_min_le xs x).2 v hv)
      have hidx : ∀ v ∈ x :: xs,
          histIdx (xs.foldl min x - 1/2) (xs.foldl max x + 1/2) v = 5 := by
        intro v hv
        rw [hall v hv, histIdx, ← heq]
        have e1 : xs.foldl min x - (xs.foldl min x - 1/2) = (1/2 : ℚ) := by ring
        have e2 : xs.foldl min x + 1/2 - (xs.foldl min x - 1/2) = (1 : ℚ) := by ring
        rw [e1, e2]
        with_unfolding_all decide
      have hcount : ∀ i : ℕ,
          (x :: xs).countP
            (fun v => histIdx (xs.foldl min x - 1/2) (xs.foldl max x + 1/2) v == i)
          = if 5 = i then (x :: xs).length else 0 := by
        intro i
        by_cases h5 : 5 = i
        · subst h5
          rw [if_pos rfl]
          apply List.countP_eq_length.2
          intro v hv
          simp only [beq_iff_eq]
          exact hidx v hv
        · rw [if_neg h5]
          apply List.countP_eq_zero.2
          intro v hv
          simp only [beq_iff_eq]
          rw [hidx v hv]
          exact h5
      have hfreq : (npHistogram (x :: xs)).1
          = (List.range 10).map (fun i => if 5 = i then (x :: xs).length else 0) := by
        rw [npHistogram_fst]
        apply List.map_congr_left
        intro i _
        rw [hR]
        exact hcount i
      have hfreq2 : (npHistogram (x :: xs)).1
          = [0, 0, 0, 0, 0, (x :: xs).length, 0, 0, 0, 0] := by
        rw [hfreq]
        rfl
      have hLpos : (x :: xs).length ≠ 0 := by simp
      have hmax : ([0, 0, 0, 0, 0, (x :: xs).length, 0, 0, 0, 0] : List ℕ).foldr max 0
          = (x :: xs).length := by
        simp [Nat.zero_max, Nat.max_zero]
      have hargmax : npArgmax [0, 0, 0, 0, 0, (x :: xs).length, 0, 0, 0, 0] = 5 := by
        rw [npArgmax, hmax]
        rw [List.indexOf_cons_ne _ (Ne.symm hLpos), List.indexOf_cons_ne _ (Ne.symm hLpos),
          List.indexOf_cons_ne _ (Ne.symm hLpos), List.indexOf_cons_ne _ (Ne.symm hLpos),
          List.indexOf_cons_ne _ (Ne.symm hLpos), List.indexOf_cons_self]
      rw [hfreq2, hargmax, npHistogram_edge _ 5 (by norm_num), hR]
      dsimp only
      have hval : (xs.foldl min x - 1/2)
          + (5 : ℕ) * ((xs.foldl max x + 1/2) - (xs.foldl min x - 1/2)) / 10
          = xs.foldl min x := by
        rw [← heq]; push_cast; ring
      rw [hval]
      exact hmn
    · -- distinct min and max: every bin edge is at least the positive minimum
      have hle : xs.foldl min x ≤ xs.foldl max x :=
        le_trans (foldl_min_le xs x).1 (le_foldl_max xs x).1
      have hR : histRange (x :: xs) = (xs.foldl min x, xs.foldl max x) := by
        simp [histRange, heq]
      have hk : npArgmax (npHistogram (x :: xs)).1 < 11 :=
        lt_of_le_of_lt (npArgmax_le _) (by rw [npHistogram_freq_length]; norm_num)
      rw [npHistogram_edge _ _ hk, hR]
      dsimp only
      have ht : (0 : ℚ) ≤ (npArgmax (npHistogram (x :: xs)).1 : ℚ)
          * (xs.foldl max x - xs.foldl min x) / 10 :=
        div_nonneg (mul_nonneg (Nat.cast_nonneg _) (sub_nonneg.2 hle)) (by norm_num)
      exact lt_of_lt_of_le hmn (le_add_of_nonneg_right ht)

theorem infer_delta_fst (s : DataProcessor) :
    (infer_delta s).1 =
      (npHistogram ((List.range (s.n_arr - 1)).map
        (fun j => s.x_arr.getD (j+1) 0 - s.x_arr.getD j 0))).2.getD
        (npArgmax (npHistogram ((List.range (s.n_arr - 1)).map
          (fun j => s.x_arr.getD (j+1) 0 - s.x_arr.getD j 0))).1) 0 := rfl

theorem infer_delta_snd (s : DataProcessor) :
    (infer_delta s).2 = { s with delta := some (infer_delta s).1 } := rfl

theorem npHistogram_nil_zero :
    (npHistogram []).2.getD (npArgmax (npHistogram []).1) 0 = 0 := by
  with_unfolding_all decide

theorem infer_delta_degenerate (s : DataProcessor) (h : s.n_arr ≤ 1) :
    (infer_delta s).1 = 0 := by
  rw [infer_delta_fst]
  have h0 : s.n_arr - 1 = 0 := by omega
  rw [h0]
  simpa using npHistogram_nil_zero

theorem infer_delta_pos (s : DataProcessor) (hx : s.x_arr.Pairwise (· < ·))
    (hn : s.n_arr ≤ s.x_arr.length) (h2 : 2 ≤ s.n_arr) : 0 < (infer_delta s).1 := by
  rw [infer_delta_fst]
  apply hist_pos
  · simp only [ne_eq, List.map_eq_nil_iff, List.range_eq_nil]
    omega
  · intro v hv
    obtain ⟨j, hj, rfl⟩ := List.mem_map.1 hv
    have hjr : j < s.n_arr - 1 := List.mem_range.1 hj
    have hj1 : j + 1 < s.x_arr.length := by omega
    have hj0 : j < s.x_arr.length := by omega
    rw [List.getD_eq_getElem _ _ hj1, List.getD_eq_getElem _ _ hj0]
    exact sub_pos.2 (List.pairwise_iff_getElem.1 hx j (j+1) hj0 hj1 (by omega))


theorem foldl_insert_inv (d : ℚ) (hd : 0 < d) :
    ∀ (is : List ℕ) (s : DataProcessor),
      s.x_arr.Pairwise (· < ·) →
      s.x_arr.length = s.y_arr.length →
      s.n_arr ≤ s.x_arr.length →
      is.Pairwise (· > ·) →
      (∀ i ∈ is, i + 1 < s.n_arr) →
      (∀ i ∈ is, s.x_arr.getD i 0 + d < s.x_arr.getD (i+1) 0) →
      (is.foldl (insert_missing d) s).x_arr.Pairwise (· < ·) ∧
      (is.foldl (insert_missing d) s).x_arr.length =
        (is.foldl (insert_missing d) s).y_arr.length ∧
      (is.foldl (insert_missing d) s).n_arr = s.n_arr ∧
      s.n_arr ≤ (is.foldl (insert_missing d) s).x_arr.length ∧
      (is.foldl (insert_missing d) s).delta = s.delta := by
  intro is
  induction is with
  | nil => intro s h1 h2 h3 _ _ _; exact ⟨h1, h2, rfl, h3, rfl⟩
  | cons i is ih =>
    intro s h1 h2 h3 h4 h5 h6
    have hi1 : i + 1 < s.n_arr := h5 i (List.mem_cons_self i is)
    have hilen : i + 1 < s.x_arr.length := lt_of_lt_of_le hi1 h3
    have hgap : s.x_arr.getD i 0 + d < s.x_arr.getD (i+1) 0 :=
      h6 i (List.mem_cons_self i is)
    have hxlt : ∀ a ∈ s.x_arr.take (i+1), a < s.x_arr.getD i 0 + d := fun a ha =>
      lt_of_le_of_lt (mem_take_le_getD s.x_arr i (by omega) h1 a ha)
        (lt_add_of_pos_right _ hd)
    have hxgt : ∀ a ∈ s.x_arr.drop (i+1), s.x_arr.getD i 0 + d < a := fun a ha =>
      lt_of_lt_of_le hgap (mem_drop_ge_getD s.x_arr i hilen h1 a ha)
    have hx' : (insert_missing d s i).x_arr.Pairwise (· < ·) :=
      pairwise_pyInsert _ _ _ h1 hxlt hxgt
    have e1 : (insert_missing d s i).x_arr
        = pyInsert s.x_arr (i+1) (s.x_arr.getD i 0 + d) := rfl
    have e2 : (insert_missing d s i).y_arr = pyInsert s.y_arr (i+1) none := rfl
    have e3 : (insert_missing d s i).n_arr = s.n_arr := rfl
    have e4 : (insert_missing d s i).delta = s.delta := rfl
    have hlen' : (insert_missing d s i).x_arr.length = s.x_arr.length + 1 := by
      rw [e1, pyInsert_length]
    have res := ih (insert_missing d s i) hx'
      (by rw [e1, e2, pyInsert_length, pyInsert_length, h2])
      (by rw [e3, hlen']; omega)
      h4.of_cons
      (fun j hj => by rw [e3]; exact h5 j (List.mem_cons_of_mem _ hj))
      (fun j hj => by
        have hji : j < i := (List.pairwise_cons.1 h4).1 j hj
        have hjn : j + 1 < s.n_arr := h5 j (List.mem_cons_of_mem _ hj)
        rw [e1, pyInsert_getD_of_lt s.x_arr (i+1) j _ 0 (by omega) (by omega),
          pyInsert_getD_of_lt s.x_arr (i+1) (j+1) _ 0 (by omega) (by omega)]
        exact h6 j (List.mem_cons_of_mem _ hj))
    rw [List.foldl_cons]
    refine ⟨res.1, res.2.1, ?_, ?_, ?_⟩
    · rw [res.2.2.1, e3]
    · have := res.2.2.2.1
      rw [e3] at this
      exact this
    · rw [res.2.2.2.2, e4]

theorem nodup_bounded_length (ixs : List ℕ) (n : ℕ) (hnd : ixs.Nodup)
    (hlt : ∀ i ∈ ixs, i < n) : ixs.length ≤ n := by
  have hsub : ixs.toFinset ⊆ Finset.range n := fun i hi =>
    Finset.mem_range.2 (hlt i (List.mem_toFinset.1 hi))
  have hcard := Finset.card_le_card hsub
  rwa [List.toFinset_card_of_nodup hnd, Finset.card_range] at hcard

theorem resolveDelta_inv (s : DataProcessor) (darg : Option ℚ)
    (harg : darg = none ∨ ∃ q, darg = some q ∧ 0 < q) (hs : Inv s) :
    Inv (resolveDelta s darg).2 ∧
    (resolveDelta s darg).2.x_arr = s.x_arr ∧
    (resolveDelta s darg).2.n_arr = s.n_arr ∧
    (0 < (resolveDelta s darg).1 ∨ (resolveDelta s darg).2.n_arr ≤ 1) := by
  obtain ⟨h1, h2, h3, h4⟩ := hs
  by_cases ht : pyTruthy darg
  · obtain ⟨q, rfl, hq⟩ : ∃ q, darg = some q ∧ 0 < q := by
      rcases harg with rfl | h
      · simp [pyTruthy] at ht
      · exact h
    rw [resolveDelta, if_pos ht]
    exact ⟨⟨h1, h2, h3, h4⟩, rfl, rfl, Or.inl (by simpa using hq)⟩
  · by_cases hc : pyTruthy s.delta
    · obtain ⟨q, hq⟩ : ∃ q, s.delta = some q := by
        cases hsd : s.delta with
        | none => rw [hsd] at hc; simp [pyTruthy] at hc
        | some q => exact ⟨q, rfl⟩
      have hq0 : q ≠ 0 := by
        rw [hq] at hc
        simpa [pyTruthy] using hc
      have hqpos : 0 < q := by
        rcases h4 q hq with h | ⟨h0, _⟩
        · exact h
        · exact absurd h0 hq0
      rw [resolveDelta, if_neg ht, if_pos hc]
      refine ⟨⟨h1, h2, h3, h4⟩, rfl, rfl, Or.inl ?_⟩
      rw [hq]
      simpa using hqpos
    · rw [resolveDelta, if_neg ht, if_neg hc]
      have hdelta : (infer_delta s).2.delta = some (infer_delta s).1 := rfl
      rcases Nat.lt_or_ge s.n_arr 2 with hn | hn
      · refine ⟨⟨h1, h2, h3, ?_⟩, rfl, rfl, Or.inr (by show s.n_arr ≤ 1; omega)⟩
        intro d' hd'
        rw [hdelta] at hd'
        have hd'' := (Option.some.inj hd').symm
        subst hd''
        exact Or.inr ⟨infer_delta_degenerate s (by omega), by show s.n_arr ≤ 1; omega⟩
      · refine ⟨⟨h1, h2, h3, ?_⟩, rfl, rfl,
          Or.inl (infer_delta_pos s h1 h3 hn)⟩
        intro d' hd'
        rw [hdelta] at hd'
        have hd'' := (Option.some.inj hd').symm
        subst hd''
        exact Or.inl (infer_delta_pos s h1 h3 hn)

theorem sort_inv (s : DataProcessor) (hs : Inv s) : Inv (sort_x_values s) := by
  obtain ⟨h1, h2, h3, h4⟩ := hs
  have hnd : s.x_arr.Nodup := h1.imp (fun h => ne_of_lt h)
  refine ⟨sort_x_values_sorted s hnd h2, ?_, ?_, h4⟩
  · rw [sort_x_values_x_length, sort_x_values_y_length]
  · show s.n_arr ≤ (sort_x_values s).x_arr.length
    rw [sort_x_values_x_length, ← h2, min_self]
    exact h3

theorem delete_randomly_inv (s : DataProcessor) (ixs : List ℕ) (hnd : ixs.Nodup)
    (hlt : ∀ i ∈ ixs, i < s.n_arr) (hs : Inv s) : Inv (delete_randomly s ixs) := by
  obtain ⟨h1, h2, h3, h4⟩ := hs
  have hrnd : (ixs.map (fun i => s.x_arr.getD i 0)).Nodup := by
    apply List.Nodup.map_on _ hnd
    intro i hi j hj hf
    have hi' : i < s.x_arr.length := lt_of_lt_of_le (hlt i hi) h3
    have hj' : j < s.x_arr.length := lt_of_lt_of_le (hlt j hj) h3
    rw [List.getD_eq_getElem _ _ hi', List.getD_eq_getElem _ _ hj'] at hf
    by_contra hne
    rcases Nat.lt_or_ge i j with h | h
    · exact absurd hf (ne_of_lt (List.pairwise_iff_getElem.1 h1 i j hi' hj' h))
    · have hji : j < i := by omega
      exact absurd hf.symm (ne_of_lt (List.pairwise_iff_getElem.1 h1 j i hj' hi' hji))
  set r : DataProcessor := { s with
    x_arr := ixs.map (fun i => s.x_arr.getD i 0),
    y_arr := ixs.map (fun i => s.y_arr.getD i none),
    n_arr := (ixs.map (fun i => s.x_arr.getD i 0)).length } with hr
  have hrlen : r.x_arr.length = r.y_arr.length := by simp [hr]
  have hdel : delete_randomly s ixs = sort_x_values r := rfl
  rw [hdel]
  refine ⟨sort_x_values_sorted r hrnd hrlen, ?_, ?_, ?_⟩
  · rw [sort_x_values_x_length, sort_x_values_y_length]
  · show r.n_arr ≤ (sort_x_values r).x_arr.length
    rw [sort_x_values_x_length, ← hrlen, min_self]
  · intro d' hd'
    have hrd : (sort_x_values r).delta = s.delta := rfl
    rw [hrd] at hd'
    rcases h4 d' hd' with h | ⟨h0, hn1⟩
    · exact Or.inl h
    · refine Or.inr ⟨h0, ?_⟩
      show r.n_arr ≤ 1
      have hlen : r.n_arr = ixs.length := by simp [hr]
      have := nodup_bounded_length ixs s.n_arr hnd hlt
      omega

theorem find_missing_data_inv (s : DataProcessor) (darg : Option ℚ)
    (harg : darg = none ∨ ∃ q, darg = some q ∧ 0 < q) (hs : Inv s) :
    Inv (find_missing_data s darg) := by
  obtain ⟨hinv1, hx, hn, hdisj⟩ := resolveDelta_inv s darg harg hs
  obtain ⟨t1, t2, t3, t4⟩ := hinv1
  have hfind : find_missing_data s darg =
      (List.insertionSort (· ≥ ·) ((List.range ((resolveDelta s darg).2.n_arr - 1)).filter
        (fun i => (resolveDelta s darg).2.x_arr.getD (i+1) 0
          - (resolveDelta s darg).2.x_arr.getD i 0 > (resolveDelta s darg).1))).foldl
        (insert_missing (resolveDelta s darg).1) (resolveDelta s darg).2 := rfl
  rcases hdisj with hd | hn1
  · have hflag : ∀ i ∈ (List.range ((resolveDelta s darg).2.n_arr - 1)).filter
        (fun i => (resolveDelta s darg).2.x_arr.getD (i+1) 0
          - (resolveDelta s darg).2.x_arr.getD i 0 > (resolveDelta s darg).1),
        i + 1 < (resolveDelta s darg).2.n_arr ∧
        (resolveDelta s darg).2.x_arr.getD i 0 + (resolveDelta s darg).1
          < (resolveDelta s darg).2.x_arr.getD (i+1) 0 := by
      intro i hi
      have h := List.mem_filter.1 hi
      have hr := List.mem_range.1 h.1
      have hgt := of_decide_eq_true h.2
      exact ⟨by omega, by linarith⟩
    have hordnd : (List.insertionSort (· ≥ ·)
        ((List.range ((resolveDelta s darg).2.n_arr - 1)).filter
          (fun i => (resolveDelta s darg).2.x_arr.getD (i+1) 0
            - (resolveDelta s darg).2.x_arr.getD i 0 > (resolveDelta s darg).1))).Nodup :=
      ((List.perm_insertionSort _ _).nodup_iff).2
        (List.Nodup.filter _ (List.nodup_range _))
    have hordsort := List.Sorted.gt_of_ge (List.sorted_insertionSort (· ≥ ·) _) hordnd
    have res := foldl_insert_inv (resolveDelta s darg).1 hd _ (resolveDelta s darg).2
      t1 t2 t3 hordsort
      (fun i hi => (hflag i ((List.mem_insertionSort _).1 hi)).1)
      (fun i hi => (hflag i ((List.mem_insertionSort _).1 hi)).2)
    rw [hfind]
    refine ⟨res.1, res.2.1, ?_, ?_⟩
    · rw [res.2.2.1]
      exact res.2.2.2.1
    · intro d' hd'
      rw [res.2.2.2.2] at hd'
      rcases t4 d' hd' with h | ⟨h0, h1'⟩
      · exact Or.inl h
      · exact Or.inr ⟨h0, by rw [res.2.2.1]; exact h1'⟩
  · have h0 : (resolveDelta s darg).2.n_arr - 1 = 0 := by omega
    rw [hfind, h0]
    simp only [List.range_zero, List.filter_nil]
    have hnil : List.insertionSort (α := ℕ) (· ≥ ·) [] = [] := rfl
    rw [hnil, List.foldl_nil]
    exact ⟨t1, t2, t3, t4⟩

theorem impute_all_ok_eq (s t : DataProcessor) (h : impute_all s = Except.ok t) :
    t = s := by
  rw [impute_all] at h
  by_cases h1 : s.imputer = true
  · rw [if_pos h1] at h
    by_cases h2 : s.missing_x_arr.all (fun p => p.1 < s.y_arr.length) = true
    · rw [if_pos h2] at h
      exact (Except.ok.inj h).symm
    · rw [if_neg h2] at h
      exact absurd h (by simp)
  · rw [if_neg h1] at h
    exact absurd h (by simp)

theorem set_imputer_ok_eq (s : DataProcessor) (nm : String) (t : DataProcessor)
    (h : set_imputer s nm = Except.ok t) : t = { s with imputer := true } := by
  rw [set_imputer] at h
  by_cases h1 : nm = "lowess"
  · rw [if_pos h1] at h
    exact (Except.ok.inj h).symm
  · rw [if_neg h1] at h
    exact absurd h (by simp)

theorem init_inv (x : List ℚ) (y : List YVal) (s : DataProcessor)
    (hnd : x.Nodup) (h : init x y = Except.ok s) : Inv s := by
  rw [init] at h
  by_cases h1 : y.length ≠ x.length
  · rw [if_pos h1] at h
    exact absurd h (by simp)
  · rw [if_neg h1] at h
    by_cases h2 : x.length = 0
    · rw [if_pos h2] at h
      exact absurd h (by simp)
    · rw [if_neg h2] at h
      have hlen : x.length = y.length := by omega
      have hs : s = sort_x_values ⟨x, y, x.length, none, false, []⟩ :=
        (Except.ok.inj h).symm
      subst hs
      refine ⟨sort_x_values_sorted _ hnd hlen, ?_, ?_, ?_⟩
      · rw [sort_x_values_x_length, sort_x_values_y_length]
      · show x.length ≤ _
        rw [sort_x_values_x_length]
        simp [hlen]
      · intro d' hd'
        exact Option.noConfusion hd'

theorem step_inv (s t : DataProcessor) (h : Step s t) (hs : Inv s) : Inv t := by
  cases h with
  | sortStep => exact sort_inv s hs
  | inferStep =>
    obtain ⟨h1, h2, h3, h4⟩ := hs
    refine ⟨h1, h2, h3, ?_⟩
    intro d hd
    have hdelta : (infer_delta s).2.delta = some (infer_delta s).1 := rfl
    rw [hdelta] at hd
    have hd' := (Option.some.inj hd).symm
    subst hd'
    rcases Nat.lt_or_ge s.n_arr 2 with hn | hn
    · exact Or.inr ⟨infer_delta_degenerate s (by omega), by show s.n_arr ≤ 1; omega⟩
    · exact Or.inl (infer_delta_pos s h1 h3 hn)
  | setImpStep nm _u hset =>
    rw [set_imputer_ok_eq s nm t hset]
    exact ⟨hs.1, hs.2.1, hs.2.2.1, hs.2.2.2⟩
  | deleteStep ixs hnd hlt => exact delete_randomly_inv s ixs hnd hlt hs
  | findStep darg harg => exact find_missing_data_inv s darg harg hs
  | imputeStep _u himp =>
    rw [impute_all_ok_eq s t himp]
    exact hs

theorem reachable_inv (s0 s : DataProcessor) (h0 : ValidStart s0)
    (h : Reachable s0 s) : Inv s := by
  obtain ⟨x, y, hnd, hinit⟩ := h0
  induction h with
  | refl => exact init_inv x y s0 hnd hinit
  | tail _ hstep ih => exact step_inv _ _ hstep ih


/-! ## The claims -/

/-- C1: the claim states that `impute_all`, given a configured Estimator and a
non-empty `missing_x_arr`, evaluates the Estimator at each recorded site's
position and writes the result into the value array, replacing MISSING. The
code's loop body is only a `print`: on the processor with positions
`[0,1,2,5,6,7]`, an imputer configured, after `find_missing_data(delta=1)` the
recorded site is `(3, 3)`, yet `impute_all` returns with the whole state
unchanged — in particular the MISSING marker at index 3 is never replaced. -/
theorem c1_impute_all_writes_nothing :
    impute_all procC1x = Except.ok procC1x ∧
    procC1x.missing_x_arr = [(3, 3)] ∧
    procC1x.y_arr = [some 10, some 20, some 30, none, some 40, some 50, some 60] :=
  ⟨by with_unfolding_all rfl, by with_unfolding_all decide,
   by with_unfolding_all decide⟩

/-- C2: the claim states that a constructed Estimator queried outside the
fitted range returns the "undefined" sentinel and does not crash. The wrapped
interpolator (with `bounds_error=False`) would indeed return the sentinel
out of range, but the body of `__call__` is `self.interpolator(x)` where the
name `x` is unbound (the parameter is `x_val`), so every call — out of range
at 100 or in range at 5 — raises `NameError`. -/
theorem c2_call_raises_nameError :
    LowessImputer.call impC2 100 = Except.error PyErr.nameError ∧
    LowessImputer.call impC2 5 = Except.error PyErr.nameError ∧
    interp1d (impC2.lowess_x.zip impC2.lowess_y) 100 = none ∧
    interp1d (impC2.lowess_x.zip impC2.lowess_y) 5 = some 5 :=
  ⟨rfl, rfl, by with_unfolding_all decide, by with_unfolding_all decide⟩

/-- C3: on positions `[0,1,2,5,6,7]` with spacing 1, `find_missing_data` flags
exactly the gap between 2 and 5, inserts exactly one `(position, MISSING)`
placeholder at position `3` immediately after the left endpoint, and records
`(3, 3)` — the insertion index and the synthesized position — in
`missing_x_arr`, even though the gap spans 3 spacing units. -/
theorem c3_single_placeholder :
    init [0, 1, 2, 5, 6, 7] [some 10, some 20, some 30, some 40, some 50, some 60]
      = Except.ok procC3 ∧
    (find_missing_data procC3 (some 1)).x_arr = [0, 1, 2, 3, 5, 6, 7] ∧
    (find_missing_data procC3 (some 1)).y_arr
      = [some 10, some 20, some 30, none, some 40, some 50, some 60] ∧
    (find_missing_data procC3 (some 1)).missing_x_arr = [(3, 3)] :=
  ⟨by with_unfolding_all rfl, by with_unfolding_all decide,
   by with_unfolding_all decide, by with_unfolding_all decide⟩

/-- C4: `infer_delta` histograms the consecutive differences, returns the left
edge of the first highest-frequency bin, and caches it: on positions
`[0,1,2,3,10,11,12,13]` the modal difference wins and the result is `1`, not
the outlier difference `7`; and on every state the returned value is exactly
what gets cached in `delta`. -/
theorem c4_infer_delta_modal :
    infer_delta procC4 = (1, { procC4 with delta := some 1 }) ∧
    ∀ s : DataProcessor, (infer_delta s).2 = { s with delta := some (infer_delta s).1 } :=
  ⟨by with_unfolding_all decide, fun _ => rfl⟩

/-- C5 counterexample: the claim states that an explicitly supplied spacing
argument always wins over a previously cached value. With cached `delta = 5`
and the explicitly supplied argument `0`, the truthiness test `if not delta`
treats the argument as absent and the code resolves to the cached `5`. -/
theorem c5_cex_zero_arg_loses :
    resolveDelta procC5 (some 0) = (5, procC5) ∧
    ¬((resolveDelta procC5 (some 0)).1 = 0) :=
  ⟨by with_unfolding_all decide, by with_unfolding_all decide⟩

/-- C5 (amended): the spacing-resolution precedence of `find_missing_data`
holds with "supplied"/"cached" read as Python-truthy: a non-`None`, non-zero
argument wins; otherwise a non-`None`, non-zero cached value wins; otherwise
the spacing is freshly inferred (a zero argument or zero cache counts as
absent). -/
theorem c5_truthy_precedence (s : DataProcessor) (arg : Option ℚ) (q : ℚ) :
    (arg = some q → q ≠ 0 → resolveDelta s arg = (q, s)) ∧
    (pyTruthy arg = false → s.delta = some q → q ≠ 0 → resolveDelta s arg = (q, s)) ∧
    (pyTruthy arg = false → pyTruthy s.delta = false →
      resolveDelta s arg = infer_delta s) := by
  refine ⟨?_, ?_, ?_⟩
  · rintro rfl hq
    rw [resolveDelta, if_pos (by simp [pyTruthy, bne_iff_ne, hq])]
    simp
  · intro ha hd hq
    rw [resolveDelta, if_neg (by simp [ha]),
      if_pos (by simp [pyTruthy, hd, bne_iff_ne, hq])]
    simp [hd]
  · intro ha hd
    rw [resolveDelta, if_neg (by simp [ha]), if_neg (by simp [hd])]

/-- C5 witness: the three precedence branches at concrete states. -/
theorem c5_truthy_precedence_w :
    resolveDelta procC3 (some 3) = (3, procC3) ∧
    resolveDelta procC5b none = (7, procC5b) ∧
    resolveDelta procC3 none = infer_delta procC3 :=
  ⟨(c5_truthy_precedence procC3 (some 3) 3).1 rfl (by norm_num),
   (c5_truthy_precedence procC5b none 7).2.1 rfl rfl (by norm_num),
   (c5_truthy_precedence procC3 none 0).2.2 rfl rfl⟩

/-- C6: for every validly constructed processor (unique positions, and — per
the claim's positive-spacing validity assumption — any explicitly supplied
spacing positive), after construction and after every sequence of mutating
operations (sorting, random deletion, spacing inference, imputer selection,
gap-placeholder insertion, imputation) the positions array is strictly
increasing. -/
theorem c6_positions_strictly_increasing (s0 s : DataProcessor)
    (h0 : ValidStart s0) (h : Reachable s0 s) : s.x_arr.Pairwise (· < ·) :=
  (reachable_inv s0 s h0 h).1

/-- C6 witness: applied to a freshly constructed processor. -/
theorem c6_positions_strictly_increasing_w : procW.x_arr.Pairwise (· < ·) :=
  c6_positions_strictly_increasing procW procW
    ⟨[0, 1, 3], [some 5, some 6, some 7], by with_unfolding_all decide,
      by with_unfolding_all rfl⟩
    Relation.ReflTransGen.refl

/-- C7: for every validly constructed processor and every sequence of its
operations, the position and value arrays keep equal length. -/
theorem c7_lengths_equal (s0 s : DataProcessor)
    (h0 : ValidStart s0) (h : Reachable s0 s) :
    s.x_arr.length = s.y_arr.length :=
  (reachable_inv s0 s h0 h).2.1

/-- C7 witness: applied to a freshly constructed processor. -/
theorem c7_lengths_equal_w : procW.x_arr.length = procW.y_arr.length :=
  c7_lengths_equal procW procW
    ⟨[0, 1, 3], [some 5, some 6, some 7], by with_unfolding_all decide,
      by with_unfolding_all rfl⟩
    Relation.ReflTransGen.refl

/-- C8: the claim states that the stored count `n_arr` always equals the
array length, being updated by random deletion and by gap-placeholder
insertion. Deletion does update it, but `find_missing_data` inserts without
touching `n_arr`: on positions `[0,1,2,5,6,7]` with spacing 1 the arrays grow
to length 7 while `n_arr` stays 6. -/
theorem c8_count_not_updated_on_insert :
    (find_missing_data procC3 (some 1)).n_arr = 6 ∧
    (find_missing_data procC3 (some 1)).x_arr.length = 7 ∧
    (find_missing_data procC3 (some 1)).y_arr.length = 7 ∧
    (delete_randomly procC3 [5, 0, 2]).n_arr = 3 ∧
    (delete_randomly procC3 [5, 0, 2]).x_arr.length = 3 :=
  ⟨by with_unfolding_all decide, by with_unfolding_all decide,
   by with_unfolding_all decide, by with_unfolding_all decide,
   by with_unfolding_all decide⟩

/-- C9: the claim states that `convert_datetime_to_int` maps each timestamp to
seconds since the sequence minimum (so the smallest element becomes 0) and
raises `ValueError` on an unknown selector. The selector check is as claimed,
but the conversion subtracts the raw minimum datetime object from the float
`dt.datetime.timestamp(x)`, so on the two timestamps 100 and 40 it raises
`TypeError` instead of producing `[60, 0]`. -/
theorem c9_convert_raises_typeError :
    convert_datetime_to_int dtsC9 "x" = Except.error PyErr.typeError ∧
    convert_datetime_to_int dtsC9 "y" = Except.error PyErr.typeError ∧
    convert_datetime_to_int dtsC9 "z" = Except.error PyErr.valueError :=
  ⟨by with_unfolding_all rfl, by with_unfolding_all rfl, by with_unfolding_all rfl⟩

/-- C10: with an imputer configured and an empty `missing_x_arr`, `impute_all`
returns without raising and leaves the state — positions, values and
`missing_x_arr` — unchanged. -/
theorem c10_impute_all_noop (s : DataProcessor) (himp : s.imputer = true)
    (hmiss : s.missing_x_arr = []) : impute_all s = Except.ok s := by
  rw [impute_all, if_pos himp, hmiss]
  rfl

/-- C10 witness: applied to a concrete configured state. -/
theorem c10_impute_all_noop_w : impute_all procQ = Except.ok procQ :=
  c10_impute_all_noop procQ rfl rfl

end MissingData
